import Mathlib

/-!
Shallow embedding of `src/reactor.cc` (cycamore Reactor archetype).

Buffers (`core`, `fresh`, `spent`) are `cyclus::toolkit::ResBuf` objects.
ResBuf is FIFO: `Push` appends at the tail, `PopN n` removes the `n`
oldest (earliest-pushed) resources, oldest first.  We model a buffer as a
`List Batch` whose head is the oldest batch.

`res_indexes` is a `std::map<int,int>`; a read through `operator[]` of a
missing key default-constructs the value `0`, so lookups are modelled as
`(lookup id).getD 0`.  `std::map<std::string, MatVec>` iterates its keys
in ascending string order, so it is modelled as an association list kept
sorted by key.
-/

deriving instance DecidableEq for Except

namespace Cycamore

/-- A fuel assembly (a cyclus Material): object identity, quantity, and the
name of its current composition/recipe. -/
structure Batch where
  objId : Nat
  qty : ℚ
  recipe : String
deriving DecidableEq

/-- An event row written by `Reactor::Record`: (event name, value string). -/
abbrev Event := String × String

/-- A `cyclus::Request<Material>`: commodity, target quantity, the recipe of
the target material, preference, and the exclusive flag. -/
structure Request where
  commod : String
  qty : ℚ
  recipe : String
  pref : ℚ
  exclusive : Bool
deriving DecidableEq

/-- A `cyclus::RequestPortfolio`: its requests, and the set of requests that
`AddMutualReqs` marked mutually exclusive. -/
structure RequestPortfolio where
  reqs : List Request
  mutualReqs : List Request
deriving DecidableEq

/-- A `cyclus::BidPortfolio` built by `GetMatlBids`: the output commodity it
was built for, for each request (in order) the list of batches offered to it
(in offer order), and the total-quantity capacity constraint. -/
structure BidPortfolio where
  commod : String
  bids : List (Request × List Batch)
  constraint : ℚ
deriving DecidableEq

/-- The Reactor state variables used by the claims (from `reactor.h` member
declarations as initialized in `Reactor::Reactor` and mutated in
`reactor.cc`). -/
structure ReactorState where
  n_assem_batch : Nat
  assem_size : ℚ
  n_assem_core : Nat
  n_assem_spent : Nat
  n_assem_fresh : Nat
  cycle_time : Nat
  refuel_time : Nat
  power_cap : ℚ
  cycle_step : Nat
  discharged : Bool
  fuel_incommods : List String
  fuel_inrecipes : List String
  fuel_outcommods : List String
  fuel_outrecipes : List String
  fuel_prefs : List ℚ
  res_indexes : List (Nat × Nat)
  core : List Batch
  fresh : List Batch
  spent : List Batch
deriving DecidableEq

/-- Read `res_indexes[objId]` through `std::map::operator[]`: a missing key
yields the default-constructed index `0`. -/
def res_index (st : ReactorState) (objId : Nat) : Nat :=
  (st.res_indexes.lookup objId).getD 0

/-- `Reactor::fuel_incommod`: index into `fuel_incommods`, throwing KeyError
when the index is out of bounds. -/
def fuel_incommod (st : ReactorState) (m : Batch) : Except String String :=
  match st.fuel_incommods[res_index st m.objId]? with
  | some c => .ok c
  | none => .error "cycamore::Reactor - no incommod for material object"

/-- `Reactor::fuel_outcommod`: index into `fuel_outcommods`, throwing
KeyError when the index is out of bounds. -/
def fuel_outcommod (st : ReactorState) (m : Batch) : Except String String :=
  match st.fuel_outcommods[res_index st m.objId]? with
  | some c => .ok c
  | none => .error "cycamore::Reactor - no outcommod for material object"

/-- `Reactor::fuel_inrecipe`: index into `fuel_inrecipes`, throwing KeyError
when the index is out of bounds. -/
def fuel_inrecipe (st : ReactorState) (m : Batch) : Except String String :=
  match st.fuel_inrecipes[res_index st m.objId]? with
  | some c => .ok c
  | none => .error "cycamore::Reactor - no inrecipe for material object"

/-- `Reactor::fuel_outrecipe`: index into `fuel_outrecipes`, throwing
KeyError when the index is out of bounds. -/
def fuel_outrecipe (st : ReactorState) (m : Batch) : Except String String :=
  match st.fuel_outrecipes[res_index st m.objId]? with
  | some c => .ok c
  | none => .error "cycamore::Reactor - no outrecipe for material object"

/-- `Reactor::fuel_pref`: returns 0 (not an error) when the index is out of
bounds. -/
def fuel_pref (st : ReactorState) (m : Batch) : ℚ :=
  (st.fuel_prefs[res_index st m.objId]?).getD 0

/-- `Reactor::index_res`: linear scan of `fuel_incommods` for `incommod`;
record identity → index on a hit, throw ValueError otherwise.  Returns the
updated `res_indexes` map (assignment = shadowing cons, since `lookup` takes
the first hit). -/
def index_res (st : ReactorState) (objId : Nat) (incommod : String) :
    Except String (List (Nat × Nat)) :=
  match st.fuel_incommods.findIdx? (fun c => c = incommod) with
  | some i => .ok ((objId, i) :: st.res_indexes)
  | none => .error "cycamore::Reactor - received unsupported incommod material"

/-- Append a batch to the group of key `k` in a `std::map<std::string, MatVec>`
modelled as an association list sorted ascending by key (C++
`mapped[commod].push_back(m)`).  `k.data < k'.data` is definitionally
String's `<` (lexicographic), spelled on `.data` so that concrete
evaluation reduces. -/
def mapInsert (m : List (String × List Batch)) (k : String) (v : Batch) :
    List (String × List Batch) :=
  match m with
  | [] => [(k, [v])]
  | (k', vs) :: rest =>
    if k = k' then (k', vs ++ [v]) :: rest
    else if k.data < k'.data then (k, [v]) :: (k', vs) :: rest
    else (k', vs) :: mapInsert rest k v

/-- Read a group through `std::map::operator[]`: a missing key yields an
empty vector. -/
def mapGet (m : List (String × List Batch)) (k : String) : List Batch :=
  (m.lookup k).getD []

/-- Overwrite the whole group of key `k` (or insert it, keeping keys
sorted; the comparison is String's `<` spelled on `.data` as in
`mapInsert`). -/
def mapSet (m : List (String × List Batch)) (k : String) (v : List Batch) :
    List (String × List Batch) :=
  match m with
  | [] => [(k, v)]
  | (k', vs) :: rest =>
    if k = k' then (k', v) :: rest
    else if k.data < k'.data then (k, v) :: (k', vs) :: rest
    else (k', vs) :: mapSet rest k v

/-- Group a popped batch vector by `fuel_outcommod`, preserving pop order
inside each group (the common loop of `PeekSpent` and `PopSpent`;
`fuel_outcommod` may throw). -/
def mapByCommod (st : ReactorState) (mats : List Batch) :
    Except String (List (String × List Batch)) :=
  mats.foldlM (fun m b => do
    let c ← fuel_outcommod st b
    pure (mapInsert m c b)) []

/-- `Reactor::PeekSpent`: pop everything, push it straight back (so `spent`
is unchanged), and return the batches grouped by output commodity in buffer
(oldest-first) order. -/
def PeekSpent (st : ReactorState) : Except String (List (String × List Batch)) :=
  mapByCommod st st.spent

/-- `Reactor::PopSpent`: pop all spent batches, group them by output
commodity, then reverse each group so that the oldest assembly of a group is
at the back (traded away first via `back()`).  Returns the state with the
emptied buffer and the grouped map. -/
def PopSpent (st : ReactorState) :
    Except String (ReactorState × List (String × List Batch)) := do
  let mapped ← mapByCommod st st.spent
  pure ({ st with spent := [] }, mapped.map (fun g => (g.1, g.2.reverse)))

/-- `Reactor::PushSpent`: for each group in map (ascending key) order, undo
the `PopSpent` reversal and push the group back into `spent`. -/
def PushSpent (st : ReactorState) (leftover : List (String × List Batch)) :
    ReactorState :=
  leftover.foldl (fun s g => { s with spent := s.spent ++ g.2.reverse }) st

/-- `Reactor::Discharge`: fail softly when the spent buffer's free capacity
is below `n_assem_batch`; otherwise move the `min(n_assem_batch,
core.count())` oldest core batches into `spent`.  Returns (new state, return
value, events). -/
def Discharge (st : ReactorState) : ReactorState × Bool × List Event :=
  if (st.n_assem_spent : Int) - st.spent.length < st.n_assem_batch then
    (st, false, [("DISCHARGE", "failed")])
  else
    let npop := min st.n_assem_batch st.core.length
    ({ st with
        core := st.core.drop npop,
        spent := st.spent ++ st.core.take npop },
      true, [("DISCHARGE", toString npop ++ " assemblies")])

/-- `Reactor::Transmute`: pop the oldest `n_assem_batch` batches (`old`) and
the remainder (`tail`), push `old` then `tail` back (restoring the original
order), record one TRANSMUTE event with `old.size()`, then rewrite each
batch of `old` to its configured out-recipe.  `PopN` throws when asked for
more than the buffer holds. -/
def Transmute (st : ReactorState) : Except String (ReactorState × List Event) := do
  if st.n_assem_batch ≤ st.core.length then
    let old := st.core.take st.n_assem_batch
    let tail := st.core.drop st.n_assem_batch
    let evs := [(("TRANSMUTE" : String), toString old.length ++ " assemblies")]
    let old2 ← old.mapM (fun b => do
      let r ← fuel_outrecipe st b
      pure { b with recipe := r })
    pure ({ st with core := old2 ++ tail }, evs)
  else .error "cyclus::toolkit::ResBuf::PopN - pop amount too large"

/-- One request portfolio built by `GetMatlRequests`: one request per
configured input commodity (quantity `assem_size`, that commodity's
in-recipe and preference, exclusive flag set), and all of them handed to
`AddMutualReqs`.  The C++ loop indexes `fuel_inrecipes[j]` and
`fuel_prefs[j]` unchecked (undefined behavior when those parallel lists are
shorter than `fuel_incommods`); the model reads a default value there and
the theorems assume equal lengths. -/
def requestGroup (st : ReactorState) : RequestPortfolio :=
  let reqs := (List.range st.fuel_incommods.length).map (fun j =>
    { commod := (st.fuel_incommods[j]?).getD ""
      qty := st.assem_size
      recipe := (st.fuel_inrecipes[j]?).getD ""
      pref := (st.fuel_prefs[j]?).getD 0
      exclusive := true : Request })
  { reqs := reqs, mutualReqs := reqs }

/-- `Reactor::GetMatlRequests`: with `n_assem_order = n_assem_core -
core.count() + n_assem_fresh - fresh.count()` (C++ `int` arithmetic),
return early when it is 0, else run the portfolio loop `n_assem_order`
times (a negative count runs it zero times). -/
def GetMatlRequests (st : ReactorState) : List RequestPortfolio :=
  let n : Int :=
    (st.n_assem_core : Int) - st.core.length + st.n_assem_fresh - st.fresh.length
  if n = 0 then []
  else (List.range n.toNat).map (fun _ => requestGroup st)

/-- Loop body of `GetMatlTrades`: for each trade take
`mats[commod].back()` (undefined behavior — modelled as an error — when
that vector is empty), `pop_back` it, record the response, and erase the
batch's `res_indexes` entry. -/
def tradeLoop (trades : List Request) (mats : List (String × List Batch))
    (resIdx : List (Nat × Nat)) :
    Except String (List (String × List Batch) × List (Nat × Nat) × List (Request × Batch)) :=
  match trades with
  | [] => .ok (mats, resIdx, [])
  | t :: rest =>
    let group := mapGet mats t.commod
    match group.getLast? with
    | none => .error "undefined behavior - back() of an empty MatVec"
    | some m => do
      let mats2 := mapSet mats t.commod group.dropLast
      let (mats3, ri, resp) ←
        tradeLoop rest mats2 (resIdx.filter (fun p => p.1 ≠ m.objId))
      .ok (mats3, ri, (t, m) :: resp)

/-- `Reactor::GetMatlTrades`: pop all spent batches grouped by output
commodity, answer each trade from the back of its commodity's group, then
push the leftovers back into `spent`. -/
def GetMatlTrades (st : ReactorState) (trades : List Request) :
    Except String (ReactorState × List (Request × Batch)) := do
  let (st1, mats) ← PopSpent st
  let (mats2, ri, responses) ← tradeLoop trades mats st1.res_indexes
  pure (PushSpent { st1 with res_indexes := ri } mats2, responses)

/-- Modelled from the spec: buffer capacity enforcement.  `reactor.h`,
which configures each ResBuf's capacity, is not under `src/`; per the spec
(sections 3 and 6) every buffer is capacity-bounded — core at
`n_assem_core`, spent at `n_assem_spent`, fresh at `n_assem_fresh` — and
`ResBuf::Push` fails when a push would exceed the capacity. -/
def bufPush (cap : Nat) (buf : List Batch) (b : Batch) :
    Except String (List Batch) :=
  if buf.length < cap then .ok (buf ++ [b])
  else .error "cyclus::toolkit::ResBuf::Push - exceeds capacity"

/-- Loop body of `AcceptMatlTrades`: index each delivered batch under its
request's commodity, then push it into core when `core.count() <
n_assem_core`, else into fresh. -/
def acceptLoop : ReactorState → List (String × Batch) → Except String ReactorState
  | st, [] => .ok st
  | st, (commod, m) :: rest => do
    let ri ← index_res st m.objId commod
    let st1 := { st with res_indexes := ri }
    if st1.core.length < st1.n_assem_core then do
      let c ← bufPush st1.n_assem_core st1.core m
      acceptLoop { st1 with core := c } rest
    else do
      let f ← bufPush st1.n_assem_fresh st1.fresh m
      acceptLoop { st1 with fresh := f } rest

/-- `Reactor::AcceptMatlTrades`: log one LOAD event with
`min(responses.size(), n_assem_core - core.count())` when positive, then run
the accept loop over the responses. -/
def AcceptMatlTrades (st : ReactorState) (responses : List (String × Batch)) :
    Except String (ReactorState × List Event) := do
  let nload : Int :=
    min (responses.length : Int) ((st.n_assem_core : Int) - st.core.length)
  let evs := if 0 < nload then [(("LOAD" : String), toString nload ++ " assemblies")] else []
  let st1 ← acceptLoop st responses
  pure (st1, evs)

/-- Inner loop of `GetMatlBids` for one request: offer batches in group
order, accumulating the offered quantity, and break right after the running
total reaches the request's target quantity. -/
def greedyBids : List Batch → ℚ → ℚ → List Batch
  | [], _, _ => []
  | m :: rest, tot, target =>
    let tot2 := tot + m.qty
    if target ≤ tot2 then [m]
    else m :: greedyBids rest tot2 target

/-- Total quantity of a batch vector (the capacity-constraint loop of
`GetMatlBids`). -/
def sumQty (mats : List Batch) : ℚ := (mats.map Batch.qty).sum

/-- Commodity loop of `GetMatlBids`.  In the C++ the `gotmats` flag is never
set to true, so `PeekSpent()` (which does not change `spent`) is re-run for
every commodity that has pending requests; the model mirrors that. -/
def GetMatlBidsAux (st : ReactorState) (requests : String → List Request) :
    List String → Except String (List BidPortfolio)
  | [] => .ok []
  | commod :: rest =>
    if (requests commod).length = 0 then GetMatlBidsAux st requests rest
    else do
      let all_mats ← PeekSpent st
      let mats := mapGet all_mats commod
      if mats.length = 0 then GetMatlBidsAux st requests rest
      else do
        let ports ← GetMatlBidsAux st requests rest
        let port : BidPortfolio :=
          { commod := commod
            bids := (requests commod).map (fun req => (req, greedyBids mats 0 req.qty))
            constraint := sumQty mats }
        .ok (port :: ports)

/-- `Reactor::GetMatlBids`: iterate the configured output commodities; for
each one with pending requests and a nonempty matching spent group, build a
bid portfolio (greedy per-request offers plus a total-quantity capacity
constraint). -/
def GetMatlBids (st : ReactorState) (requests : String → List Request) :
    Except String (List BidPortfolio) :=
  GetMatlBidsAux st requests st.fuel_outcommods

/-- `Reactor::Tock` (the post-exchange phase): cycle-boundary reset,
CYCLE_START event, power time-series value, and the guarded `cycle_step`
increment.  Returns (new state, events, recorded power). -/
def Tock (st : ReactorState) : ReactorState × List Event × ℚ :=
  let st1 :=
    if st.cycle_time + st.refuel_time ≤ st.cycle_step ∧
        st.core.length = st.n_assem_core then
      { st with discharged := false, cycle_step := 0 }
    else st
  let evs :=
    if st1.cycle_step = 0 ∧ st1.core.length = st1.n_assem_core then
      [(("CYCLE_START" : String), ("" : String))]
    else []
  let power : ℚ :=
    if 0 ≤ st1.cycle_step ∧ st1.cycle_step < st1.cycle_time ∧
        st1.core.length = st1.n_assem_core then st1.power_cap
    else 0
  let st2 :=
    if 0 < st1.cycle_step ∨ st1.core.length = st1.n_assem_core then
      { st1 with cycle_step := st1.cycle_step + 1 }
    else st1
  (st2, evs, power)

/-- A run of post-exchange phases: between two `Tock` calls the rest of the
time step (discharge, load, trades) may change the core, so each entry of
`cores` gives the core contents seen by that call. -/
def tockTrace (st : ReactorState) (cores : List (List Batch)) : ReactorState :=
  cores.foldl (fun s c => (Tock { s with core := c }).1) st

/-- Predicate for the bid-generation offer discipline of section 4.5: the
offered batches are a prefix of the commodity's oldest-first spent group;
every nonempty strict prefix of the offer accumulates strictly less than the
target quantity; and the offer either reaches the target or exhausts the
group.  (An empty group yields an empty offer; a nonempty group always
offers at least its first batch, since the loop adds a bid before testing
the running total.) -/
def GreedyOfferSpec (mats : List Batch) (target : ℚ) (offered : List Batch) : Prop :=
  ∃ k, k ≤ mats.length ∧ offered = mats.take k ∧
    (mats = [] → k = 0) ∧ (mats ≠ [] → 1 ≤ k) ∧
    (∀ j, 1 ≤ j → j < k → sumQty (mats.take j) < target) ∧
    (target ≤ sumQty (mats.take k) ∨ k = mats.length)

/-- The spent batches whose recorded output commodity is `c`, in buffer
(oldest-first) order. -/
def spentWithCommod (st : ReactorState) (c : String) : List Batch :=
  st.spent.filter (fun b => decide (fuel_outcommod st b = .ok c))

/-- Example batches for the concrete scenarios. -/
def bA : Batch := ⟨1, 5, "rsp"⟩

def bB : Batch := ⟨2, 5, "rsp"⟩

/-- A small base configuration: one fuel path
(enrU, rin) → (out1, rout), batch size 10. -/
def exBase : ReactorState :=
  { n_assem_batch := 1, assem_size := 10, n_assem_core := 3, n_assem_spent := 3,
    n_assem_fresh := 2, cycle_time := 2, refuel_time := 1, power_cap := 100,
    cycle_step := 0, discharged := false,
    fuel_incommods := ["enrU"], fuel_inrecipes := ["rin"],
    fuel_outcommods := ["out1"], fuel_outrecipes := ["rout"],
    fuel_prefs := [0], res_indexes := [], core := [], fresh := [], spent := [] }

/-- Scenario D state: `cycle_step = cycle_time + refuel_time = 3` with a
full one-assembly core. -/
def exC1 : ReactorState :=
  { exBase with
    n_assem_core := 1, cycle_step := 3, discharged := true,
    core := [⟨7, 10, "rout"⟩], res_indexes := [(7, 0)] }

/-- A state with two fuel paths and two spent batches of interleaved output
commodities: batch 1 maps to path 1 ("outB"), batch 2 to path 0 ("outA"),
and "outB" was pushed before "outA". -/
def exC3 : ReactorState :=
  { exBase with
    fuel_incommods := ["inA", "inB"], fuel_inrecipes := ["ia", "ib"],
    fuel_outcommods := ["outA", "outB"], fuel_outrecipes := ["ra", "rb"],
    fuel_prefs := [0, 0],
    res_indexes := [(1, 1), (2, 0)],
    spent := [⟨1, 5, "x"⟩, ⟨2, 5, "y"⟩] }

/-- Scenario C state: spent holds `bA` then `bB` (pushed in that order),
both of quantity 5 and output commodity "out1". -/
def exC4 : ReactorState :=
  { exBase with
    res_indexes := [(1, 0), (2, 0)],
    spent := [bA, bB] }

/-- The single demand of scenario C: 5 units of "out1". -/
def reqOut1 : Request :=
  { commod := "out1", qty := 5, recipe := "", pref := 0, exclusive := true }

/-- The request map of scenario C: one pending request on "out1". -/
def reqsC4 : String → List Request :=
  fun c => if c = "out1" then [reqOut1] else []

/-- A state where the spent buffer's free capacity (1 - 1 = 0) is below
`n_assem_batch = 1`. -/
def exC5 : ReactorState :=
  { exBase with
    n_assem_spent := 1, spent := [⟨9, 10, "rout"⟩],
    core := [⟨1, 10, "a"⟩, ⟨2, 10, "b"⟩] }

/-- Scenario B state: one missing core slot plus one missing fresh slot
(N = 2), one configured input commodity "enrU" with batch size 10. -/
def exC6 : ReactorState :=
  { exBase with n_assem_core := 1, n_assem_fresh := 1 }

/-- A full three-assembly core with `n_assem_batch = 2`; all three batches
tracked on fuel path 0. -/
def exC7 : ReactorState :=
  { exBase with
    n_assem_batch := 2,
    res_indexes := [(1, 0), (2, 0), (3, 0)],
    core := [⟨1, 10, "rin"⟩, ⟨2, 10, "rin"⟩, ⟨3, 10, "rin"⟩] }

/-- A one-slot core and one-slot fresh buffer, both empty. -/
def exC9 : ReactorState :=
  { exBase with n_assem_core := 1, n_assem_fresh := 1 }

/-- All batches stored in a commodity map, in group order (specification
helper). -/
def joinVals (m : List (String × List Batch)) : List Batch :=
  (m.map (fun g => g.2)).flatten

/-! Helper lemmas (shared). -/

theorem joinVals_cons (k : String) (vs : List Batch)
    (m : List (String × List Batch)) :
    joinVals ((k, vs) :: m) = vs ++ joinVals m := by
  simp [joinVals]

theorem mapInsert_cons_eq (k k' : String) (v : Batch) (vs : List Batch)
    (rest : List (String × List Batch)) (h : k = k') :
    mapInsert ((k', vs) :: rest) k v = (k', vs ++ [v]) :: rest := by
  unfold mapInsert
  rw [if_pos h]

theorem mapInsert_cons_lt (k k' : String) (v : Batch) (vs : List Batch)
    (rest : List (String × List Batch)) (h1 : ¬k = k') (h2 : k.data < k'.data) :
    mapInsert ((k', vs) :: rest) k v = (k, [v]) :: (k', vs) :: rest := by
  unfold mapInsert
  rw [if_neg h1, if_pos h2]

theorem mapInsert_cons_gt (k k' : String) (v : Batch) (vs : List Batch)
    (rest : List (String × List Batch)) (h1 : ¬k = k') (h2 : ¬k.data < k'.data) :
    mapInsert ((k', vs) :: rest) k v = (k', vs) :: mapInsert rest k v := by
  unfold mapInsert
  rw [if_neg h1, if_neg h2]
  cases rest with
  | nil => rfl
  | cons g r =>
    rcases g with ⟨a, b⟩
    rfl

theorem joinVals_mapInsert_perm (m : List (String × List Batch)) (k : String)
    (v : Batch) : (joinVals (mapInsert m k v)).Perm (joinVals m ++ [v]) := by
  induction m with
  | nil => simp [mapInsert, joinVals]
  | cons g rest ih =>
    rcases g with ⟨k', vs⟩
    by_cases h1 : k = k'
    · rw [mapInsert_cons_eq k k' v vs rest h1, joinVals_cons, joinVals_cons,
        List.append_assoc, List.append_assoc]
      exact List.Perm.append_left vs List.perm_append_comm
    · by_cases h2 : k.data < k'.data
      · rw [mapInsert_cons_lt k k' v vs rest h1 h2, joinVals_cons, joinVals_cons]
        exact List.perm_append_comm
      · rw [mapInsert_cons_gt k k' v vs rest h1 h2, joinVals_cons, joinVals_cons]
        have hp := List.Perm.append_left vs ih
        rw [← List.append_assoc] at hp
        exact hp

theorem exc_bind_ok {α β ε : Type} (a : α) (f : α → Except ε β) :
    (Except.ok a >>= f) = f a := rfl

theorem exc_bind_error {α β ε : Type} (e : ε) (f : α → Except ε β) :
    ((Except.error e : Except ε α) >>= f) = Except.error e := rfl

theorem exc_pure {α ε : Type} (a : α) : (pure a : Except ε α) = Except.ok a := rfl

theorem mapByCommod_join_perm (st : ReactorState) (mats : List Batch) :
    ∀ m0 m1, (mats.foldlM (fun m b => do
        let c ← fuel_outcommod st b
        pure (mapInsert m c b)) m0) = .ok m1 →
      (joinVals m1).Perm (joinVals m0 ++ mats) := by
  induction mats with
  | nil =>
    intro m0 m1 h
    rw [List.foldlM_nil, exc_pure] at h
    cases h
    simp
  | cons b t ih =>
    intro m0 m1 h
    rw [List.foldlM_cons] at h
    cases hc : fuel_outcommod st b with
    | error e =>
      rw [hc, exc_bind_error, exc_bind_error] at h
      cases h
    | ok c =>
      rw [hc, exc_bind_ok, exc_pure, exc_bind_ok] at h
      have hp1 := ih (mapInsert m0 c b) m1 h
      refine hp1.trans ?_
      have hp2 := List.Perm.append_right t (joinVals_mapInsert_perm m0 c b)
      refine hp2.trans ?_
      rw [List.append_assoc]
      simp

theorem mapByCommod_uniform (st : ReactorState) (c : String) (mats : List Batch) :
    ∀ acc : List Batch, (∀ b ∈ mats, fuel_outcommod st b = .ok c) →
      (mats.foldlM (fun m b => do
          let c2 ← fuel_outcommod st b
          pure (mapInsert m c2 b)) [(c, acc)]) = .ok [(c, acc ++ mats)] := by
  induction mats with
  | nil =>
    intro acc h
    rw [List.foldlM_nil, exc_pure]
    simp
  | cons b t ih =>
    intro acc h
    rw [List.foldlM_cons, h b (List.mem_cons_self b t), exc_bind_ok, exc_pure,
      exc_bind_ok, mapInsert_cons_eq c c b acc [] rfl,
      ih (acc ++ [b]) (fun x hx => h x (List.mem_cons_of_mem b hx))]
    simp

theorem PushSpent_spent (st : ReactorState) (l : List (String × List Batch)) :
    (PushSpent st l).spent = st.spent ++ (l.map (fun g => g.2.reverse)).flatten := by
  induction l generalizing st with
  | nil => simp [PushSpent]
  | cons g t ih =>
    show (PushSpent { st with spent := st.spent ++ g.2.reverse } t).spent = _
    rw [ih]
    simp

theorem commodLookup_error_iff (l : List String) (i : Nat) (msg : String) :
    (∃ e, (match l[i]? with
            | some c => Except.ok c
            | none => Except.error msg) = (Except.error e : Except String String)) ↔
      l.length ≤ i := by
  cases h : l[i]? with
  | some c =>
    have hi : i < l.length := by
      rcases List.getElem?_eq_some.mp h with ⟨hlt, _⟩
      exact hlt
    simp [h]
    omega
  | none =>
    have hi : l.length ≤ i := by
      by_contra hc
      push_neg at hc
      rw [List.getElem?_eq_getElem hc] at h
      cases h
    simp [h, hi]

theorem Tock_cycle_step_eq (st : ReactorState) :
    (Tock st).1.cycle_step =
      if st.cycle_time + st.refuel_time ≤ st.cycle_step ∧
          st.core.length = st.n_assem_core then 1
      else if 0 < st.cycle_step ∨ st.core.length = st.n_assem_core then
        st.cycle_step + 1
      else st.cycle_step := by
  unfold Tock
  by_cases h1 : st.cycle_time + st.refuel_time ≤ st.cycle_step ∧
      st.core.length = st.n_assem_core
  · simp [h1, h1.2]
  · simp only [if_neg h1]
    by_cases h2 : 0 < st.cycle_step ∨ st.core.length = st.n_assem_core
    · simp [h2]
    · simp [h2]

theorem Tock_discharged_eq (st : ReactorState) :
    (Tock st).1.discharged =
      if st.cycle_time + st.refuel_time ≤ st.cycle_step ∧
          st.core.length = st.n_assem_core then false
      else st.discharged := by
  unfold Tock
  by_cases h1 : st.cycle_time + st.refuel_time ≤ st.cycle_step ∧
      st.core.length = st.n_assem_core
  · simp [h1, h1.2]
  · simp only [if_neg h1]
    by_cases h2 : 0 < st.cycle_step ∨ st.core.length = st.n_assem_core
    · simp [h2]
    · simp [h2]

theorem Tock_events_eq (st : ReactorState) :
    (Tock st).2.1 =
      if (st.cycle_step = 0 ∨ st.cycle_time + st.refuel_time ≤ st.cycle_step) ∧
          st.core.length = st.n_assem_core then [("CYCLE_START", "")]
      else [] := by
  unfold Tock
  by_cases h1 : st.cycle_time + st.refuel_time ≤ st.cycle_step ∧
      st.core.length = st.n_assem_core
  · simp [h1, h1.1, h1.2]
  · simp only [if_neg h1]
    by_cases hf : st.core.length = st.n_assem_core
    · have hcs : ¬(st.cycle_time + st.refuel_time ≤ st.cycle_step) := fun hc => h1 ⟨hc, hf⟩
      by_cases h0 : st.cycle_step = 0
      · simp [h0, hf]
      · simp [h0, hf, hcs]
    · simp [hf]

theorem Tock_preserves_config (st : ReactorState) :
    (Tock st).1.n_assem_core = st.n_assem_core ∧
    (Tock st).1.cycle_time = st.cycle_time ∧
    (Tock st).1.refuel_time = st.refuel_time := by
  unfold Tock
  by_cases h1 : st.cycle_time + st.refuel_time ≤ st.cycle_step ∧
      st.core.length = st.n_assem_core
  · simp only [if_pos h1]
    simp [h1.2]
  · simp only [if_neg h1]
    by_cases h2 : 0 < st.cycle_step ∨ st.core.length = st.n_assem_core
    · simp [h2]
    · simp [h2]

theorem Tock_cycle_step_pos (st : ReactorState)
    (h : 1 ≤ st.cycle_step ∨ st.core.length = st.n_assem_core) :
    1 ≤ (Tock st).1.cycle_step := by
  rw [Tock_cycle_step_eq]
  by_cases h1 : st.cycle_time + st.refuel_time ≤ st.cycle_step ∧
      st.core.length = st.n_assem_core
  · simp [h1]
  · have h2 : 0 < st.cycle_step ∨ st.core.length = st.n_assem_core := h
    simp [h1, h2]

theorem tockTrace_pos (st : ReactorState) (cores : List (List Batch))
    (h : 1 ≤ st.cycle_step) : 1 ≤ (tockTrace st cores).cycle_step := by
  induction cores generalizing st with
  | nil => exact h
  | cons c rest ih =>
    exact ih _ (Tock_cycle_step_pos { st with core := c } (Or.inl h))

theorem tockTrace_config (st : ReactorState) (cores : List (List Batch)) :
    (tockTrace st cores).n_assem_core = st.n_assem_core := by
  induction cores generalizing st with
  | nil => rfl
  | cons c rest ih =>
    rw [show tockTrace st (c :: rest) = tockTrace (Tock { st with core := c }).1 rest from rfl,
      ih]
    exact (Tock_preserves_config { st with core := c }).1

theorem sumQty_nil : sumQty [] = 0 := rfl

theorem sumQty_cons (b : Batch) (l : List Batch) :
    sumQty (b :: l) = b.qty + sumQty l := by
  simp [sumQty]

theorem greedyBids_cons (b : Batch) (rest : List Batch) (tot target : ℚ) :
    greedyBids (b :: rest) tot target =
      if target ≤ tot + b.qty then [b]
      else b :: greedyBids rest (tot + b.qty) target := rfl

theorem greedyBids_spec (mats : List Batch) : ∀ tot target : ℚ,
    ∃ k, k ≤ mats.length ∧ greedyBids mats tot target = mats.take k ∧
      (mats = [] → k = 0) ∧ (mats ≠ [] → 1 ≤ k) ∧
      (∀ j, 1 ≤ j → j < k → tot + sumQty (mats.take j) < target) ∧
      (target ≤ tot + sumQty (mats.take k) ∨ k = mats.length) := by
  induction mats with
  | nil =>
    intro tot target
    exact ⟨0, Nat.le_refl 0, rfl, fun _ => rfl, fun hne => absurd rfl hne,
      fun j hj1 hj2 => absurd hj2 (by omega), Or.inr rfl⟩
  | cons b rest ih =>
    intro tot target
    by_cases hc : target ≤ tot + b.qty
    · refine ⟨1, by simp, ?_, by simp, fun _ => Nat.le_refl 1,
        fun j hj1 hj2 => absurd (Nat.lt_of_le_of_lt hj1 hj2) (by omega), Or.inl ?_⟩
      · rw [greedyBids_cons, if_pos hc]
        rfl
      · rw [show (b :: rest).take 1 = [b] from rfl, sumQty_cons, sumQty_nil]
        linarith
    · rcases ih (tot + b.qty) target with ⟨k, hk, hg, _, _, hmid, hend⟩
      refine ⟨k + 1, by simpa using Nat.succ_le_succ hk, ?_, by simp,
        fun _ => by omega, ?_, ?_⟩
      · rw [greedyBids_cons, if_neg hc, hg, List.take_succ_cons]
      · intro j hj1 hj2
        cases j with
        | zero => omega
        | succ j2 =>
          rw [List.take_succ_cons, sumQty_cons]
          cases Nat.eq_zero_or_pos j2 with
          | inl hz =>
            subst hz
            rw [List.take_zero, sumQty_nil]
            have := lt_of_not_le hc
            linarith
          | inr hpos =>
            have := hmid j2 hpos (by omega)
            linarith
      · rcases hend with hend | hend
        · left
          rw [List.take_succ_cons, sumQty_cons]
          linarith
        · right
          simp [hend]

theorem GetMatlBidsAux_cons (st : ReactorState) (requests : String → List Request)
    (c : String) (rest : List String) :
    GetMatlBidsAux st requests (c :: rest) =
      if (requests c).length = 0 then GetMatlBidsAux st requests rest
      else
        (PeekSpent st) >>= fun all_mats =>
          if (mapGet all_mats c).length = 0 then GetMatlBidsAux st requests rest
          else
            (GetMatlBidsAux st requests rest) >>= fun ports =>
              .ok ({ commod := c
                     bids := (requests c).map
                       (fun req => (req, greedyBids (mapGet all_mats c) 0 req.qty))
                     constraint := sumQty (mapGet all_mats c) } :: ports) := rfl

theorem GetMatlBidsAux_spec (st : ReactorState) (requests : String → List Request) :
    ∀ (commods : List String) (ports : List BidPortfolio),
      GetMatlBidsAux st requests commods = .ok ports →
      ∀ p ∈ ports, ∃ am, PeekSpent st = .ok am ∧
        p.constraint = sumQty (mapGet am p.commod) ∧
        p.bids = (requests p.commod).map
          (fun req => (req, greedyBids (mapGet am p.commod) 0 req.qty)) := by
  intro commods
  induction commods with
  | nil =>
    intro ports h p hp
    cases h
    simp at hp
  | cons c rest ih =>
    intro ports h p hp
    rw [GetMatlBidsAux_cons] at h
    by_cases h0 : (requests c).length = 0
    · rw [if_pos h0] at h
      exact ih ports h p hp
    · rw [if_neg h0] at h
      cases hpk : PeekSpent st with
      | error e =>
        rw [hpk, exc_bind_error] at h
        cases h
      | ok am =>
        rw [hpk, exc_bind_ok] at h
        by_cases h1 : (mapGet am c).length = 0
        · rw [if_pos h1] at h
          have hh := ih ports h p hp
          rw [hpk] at hh
          exact hh
        · rw [if_neg h1] at h
          cases hrec : GetMatlBidsAux st requests rest with
          | error e =>
            rw [hrec, exc_bind_error] at h
            cases h
          | ok ports2 =>
            rw [hrec, exc_bind_ok] at h
            cases h
            rcases List.mem_cons.mp hp with hp2 | hp2
            · subst hp2
              exact ⟨am, rfl, rfl, rfl⟩
            · have hh := ih ports2 hrec p hp2
              rw [hpk] at hh
              exact hh

theorem string_data_lt_trans (a b c : String) (h1 : a.data < b.data)
    (h2 : b.data < c.data) : a.data < c.data := lt_trans h1 h2

theorem string_data_lt_irrefl (a : String) : ¬a.data < a.data := lt_irrefl a.data

theorem string_data_eq (s t : String) (h : s.data = t.data) : s = t := by
  cases s
  cases t
  cases h
  rfl

theorem string_gt_of_not_lt (s t : String) (h1 : ¬s = t)
    (h2 : ¬s.data < t.data) : t.data < s.data := by
  rcases lt_trichotomy s.data t.data with h | h | h
  · exact absurd h h2
  · exact absurd (string_data_eq s t h) h1
  · exact h

theorem mapGet_cons (c k : String) (vs : List Batch)
    (rest : List (String × List Batch)) :
    mapGet ((k, vs) :: rest) c = if c = k then vs else mapGet rest c := by
  by_cases h : c = k
  · subst h
    rw [if_pos rfl]
    unfold mapGet
    simp
  · rw [if_neg h]
    unfold mapGet
    rw [List.lookup_cons]
    have hb : (c == k) = false := by simp [h]
    rw [hb]

theorem mapSet_cons_eq (k k' : String) (v vs : List Batch)
    (rest : List (String × List Batch)) (h : k = k') :
    mapSet ((k', vs) :: rest) k v = (k', v) :: rest := by
  unfold mapSet
  rw [if_pos h]

theorem mapSet_cons_lt (k k' : String) (v vs : List Batch)
    (rest : List (String × List Batch)) (h1 : ¬k = k') (h2 : k.data < k'.data) :
    mapSet ((k', vs) :: rest) k v = (k, v) :: (k', vs) :: rest := by
  unfold mapSet
  rw [if_neg h1, if_pos h2]

theorem mapSet_cons_gt (k k' : String) (v vs : List Batch)
    (rest : List (String × List Batch)) (h1 : ¬k = k') (h2 : ¬k.data < k'.data) :
    mapSet ((k', vs) :: rest) k v = (k', vs) :: mapSet rest k v := by
  unfold mapSet
  rw [if_neg h1, if_neg h2]
  cases rest with
  | nil => rfl
  | cons g r =>
    rcases g with ⟨a, b⟩
    rfl

theorem mapGet_mapSet_self (m : List (String × List Batch)) (k : String)
    (v : List Batch) : mapGet (mapSet m k v) k = v := by
  induction m with
  | nil => rw [show mapSet [] k v = [(k, v)] from rfl, mapGet_cons, if_pos rfl]
  | cons g rest ih =>
    rcases g with ⟨k', vs⟩
    by_cases h1 : k = k'
    · rw [mapSet_cons_eq k k' v vs rest h1, mapGet_cons, if_pos h1]
    · by_cases h2 : k.data < k'.data
      · rw [mapSet_cons_lt k k' v vs rest h1 h2, mapGet_cons, if_pos rfl]
      · rw [mapSet_cons_gt k k' v vs rest h1 h2, mapGet_cons, if_neg h1, ih]

theorem mapGet_mapSet_ne (m : List (String × List Batch)) (k c : String)
    (v : List Batch) (h : ¬c = k) : mapGet (mapSet m k v) c = mapGet m c := by
  induction m with
  | nil =>
    rw [show mapSet [] k v = [(k, v)] from rfl, mapGet_cons, if_neg h]
  | cons g rest ih =>
    rcases g with ⟨k', vs⟩
    by_cases h1 : k = k'
    · rw [mapSet_cons_eq k k' v vs rest h1, mapGet_cons, mapGet_cons]
      rw [← h1, if_neg h, if_neg h]
    · by_cases h2 : k.data < k'.data
      · rw [mapSet_cons_lt k k' v vs rest h1 h2, mapGet_cons, if_neg h]
      · rw [mapSet_cons_gt k k' v vs rest h1 h2, mapGet_cons, mapGet_cons, ih]

theorem lookup_none_of_forall_ne (m : List (String × List Batch)) (k : String)
    (h : ∀ g ∈ m, ¬k = g.1) : m.lookup k = none := by
  induction m with
  | nil => rfl
  | cons g rest ih =>
    rcases g with ⟨k', vs⟩
    rw [List.lookup_cons]
    have hk : ¬k = k' := h (k', vs) (List.mem_cons_self _ _)
    have hb : (k == k') = false := by simp [hk]
    rw [hb]
    exact ih (fun g hg => h g (List.mem_cons_of_mem _ hg))

theorem mapInsert_key_mem (m : List (String × List Batch)) (k : String)
    (v : Batch) : ∀ g ∈ mapInsert m k v, g.1 = k ∨ ∃ y ∈ m, g.1 = y.1 := by
  induction m with
  | nil =>
    intro g hg
    rw [show mapInsert [] k v = [(k, [v])] from rfl] at hg
    rcases List.mem_singleton.mp hg with rfl
    exact Or.inl rfl
  | cons g0 rest ih =>
    rcases g0 with ⟨k', vs⟩
    intro g hg
    by_cases h1 : k = k'
    · rw [mapInsert_cons_eq k k' v vs rest h1] at hg
      rcases List.mem_cons.mp hg with rfl | hg2
      · exact Or.inr ⟨(k', vs), List.mem_cons_self _ _, rfl⟩
      · exact Or.inr ⟨g, List.mem_cons_of_mem _ hg2, rfl⟩
    · by_cases h2 : k.data < k'.data
      · rw [mapInsert_cons_lt k k' v vs rest h1 h2] at hg
        rcases List.mem_cons.mp hg with rfl | hg2
        · exact Or.inl rfl
        · rcases List.mem_cons.mp hg2 with rfl | hg3
          · exact Or.inr ⟨(k', vs), List.mem_cons_self _ _, rfl⟩
          · exact Or.inr ⟨g, List.mem_cons_of_mem _ hg3, rfl⟩
      · rw [mapInsert_cons_gt k k' v vs rest h1 h2] at hg
        rcases List.mem_cons.mp hg with rfl | hg2
        · exact Or.inr ⟨(k', vs), List.mem_cons_self _ _, rfl⟩
        · rcases ih g hg2 with hk | ⟨y, hy, he⟩
          · exact Or.inl hk
          · exact Or.inr ⟨y, List.mem_cons_of_mem _ hy, he⟩

theorem mapInsert_sorted (m : List (String × List Batch)) (k : String) (v : Batch)
    (hs : m.Pairwise (fun a b => a.1.data < b.1.data)) :
    (mapInsert m k v).Pairwise (fun a b => a.1.data < b.1.data) := by
  induction m with
  | nil => exact List.pairwise_singleton _ _
  | cons g0 rest ih =>
    rcases g0 with ⟨k', vs⟩
    rcases List.pairwise_cons.mp hs with ⟨hhead, hrest⟩
    by_cases h1 : k = k'
    · rw [mapInsert_cons_eq k k' v vs rest h1]
      exact List.Pairwise.cons hhead hrest
    · by_cases h2 : k.data < k'.data
      · rw [mapInsert_cons_lt k k' v vs rest h1 h2]
        refine List.Pairwise.cons ?_ hs
        intro g hg
        rcases List.mem_cons.mp hg with rfl | hg2
        · exact h2
        · exact string_data_lt_trans k k' g.1 h2 (hhead g hg2)
      · rw [mapInsert_cons_gt k k' v vs rest h1 h2]
        refine List.Pairwise.cons ?_ (ih hrest)
        intro g hg
        rcases mapInsert_key_mem rest k v g hg with hk | ⟨y, hy, he⟩
        · rw [hk]
          exact string_gt_of_not_lt k k' h1 h2
        · rw [he]
          exact hhead y hy

theorem mapGet_mapInsert_self (m : List (String × List Batch)) (k : String)
    (v : Batch) (hs : m.Pairwise (fun a b => a.1.data < b.1.data)) :
    mapGet (mapInsert m k v) k = mapGet m k ++ [v] := by
  induction m with
  | nil =>
    rw [show mapInsert [] k v = [(k, [v])] from rfl, mapGet_cons, if_pos rfl]
    rfl
  | cons g0 rest ih =>
    rcases g0 with ⟨k', vs⟩
    rcases List.pairwise_cons.mp hs with ⟨hhead, hrest⟩
    by_cases h1 : k = k'
    · rw [mapInsert_cons_eq k k' v vs rest h1, mapGet_cons, if_pos h1,
        mapGet_cons, if_pos h1]
    · by_cases h2 : k.data < k'.data
      · rw [mapInsert_cons_lt k k' v vs rest h1 h2, mapGet_cons, if_pos rfl,
          mapGet_cons, if_neg h1]
        have hnone : mapGet rest k = [] := by
          unfold mapGet
          rw [lookup_none_of_forall_ne rest k ?_]
          · rfl
          · intro g hg he
            have := string_data_lt_trans k k' g.1 h2 (hhead g hg)
            rw [← he] at this
            exact string_data_lt_irrefl k this
        rw [hnone]
        rfl
      · rw [mapInsert_cons_gt k k' v vs rest h1 h2, mapGet_cons, if_neg h1,
          mapGet_cons, if_neg h1, ih hrest]

theorem mapGet_mapInsert_ne (m : List (String × List Batch)) (k c : String)
    (v : Batch) (h : ¬c = k) : mapGet (mapInsert m k v) c = mapGet m c := by
  induction m with
  | nil =>
    rw [show mapInsert [] k v = [(k, [v])] from rfl, mapGet_cons, if_neg h]
  | cons g0 rest ih =>
    rcases g0 with ⟨k', vs⟩
    by_cases h1 : k = k'
    · rw [mapInsert_cons_eq k k' v vs rest h1, mapGet_cons, mapGet_cons]
      have hck : ¬c = k' := by
        rw [← h1]
        exact h
      rw [if_neg hck, if_neg hck]
    · by_cases h2 : k.data < k'.data
      · rw [mapInsert_cons_lt k k' v vs rest h1 h2, mapGet_cons, if_neg h]
      · rw [mapInsert_cons_gt k k' v vs rest h1 h2, mapGet_cons, mapGet_cons, ih]

theorem mapByCommod_spec (st : ReactorState) (mats : List Batch) :
    ∀ m0, m0.Pairwise (fun a b => a.1.data < b.1.data) →
      (∀ b ∈ mats, ∃ c, fuel_outcommod st b = .ok c) →
      ∃ m1, (mats.foldlM (fun m b => do
          let c ← fuel_outcommod st b
          pure (mapInsert m c b)) m0) = .ok m1 ∧
        m1.Pairwise (fun a b => a.1.data < b.1.data) ∧
        ∀ c, mapGet m1 c = mapGet m0 c ++
          mats.filter (fun b => decide (fuel_outcommod st b = .ok c)) := by
  induction mats with
  | nil =>
    intro m0 hs _
    exact ⟨m0, by rw [List.foldlM_nil, exc_pure], hs, fun c => by simp⟩
  | cons b t ih =>
    intro m0 hs hex
    rcases hex b (List.mem_cons_self b t) with ⟨cb, hcb⟩
    rcases ih (mapInsert m0 cb b) (mapInsert_sorted m0 cb b hs)
      (fun x hx => hex x (List.mem_cons_of_mem b hx)) with ⟨m1, hf, hs1, hget⟩
    refine ⟨m1, ?_, hs1, ?_⟩
    · rw [List.foldlM_cons, hcb, exc_bind_ok, exc_pure, exc_bind_ok, hf]
    · intro c
      rw [hget c]
      by_cases hc : c = cb
      · subst hc
        rw [mapGet_mapInsert_self m0 c b hs]
        have hpred : decide (fuel_outcommod st b = .ok c) = true := by
          rw [hcb]
          simp
        rw [List.filter_cons, hpred]
        simp
      · rw [mapGet_mapInsert_ne m0 cb c b hc]
        have hpred : decide (fuel_outcommod st b = .ok c) = false := by
          rw [hcb]
          simp
          intro he
          exact hc he.symm
        rw [List.filter_cons, hpred]
        simp

theorem mapGet_map_reverse (m : List (String × List Batch)) (c : String) :
    mapGet (m.map (fun g => (g.1, g.2.reverse))) c = (mapGet m c).reverse := by
  induction m with
  | nil => rfl
  | cons g rest ih =>
    rcases g with ⟨k, vs⟩
    rw [List.map_cons]
    dsimp only
    rw [mapGet_cons, mapGet_cons]
    by_cases h : c = k
    · rw [if_pos h, if_pos h]
    · rw [if_neg h, if_neg h, ih]

theorem tradeLoop_cons (t : Request) (rest : List Request)
    (mats : List (String × List Batch)) (ri : List (Nat × Nat)) :
    tradeLoop (t :: rest) mats ri =
      match (mapGet mats t.commod).getLast? with
      | none => .error "undefined behavior - back() of an empty MatVec"
      | some m =>
        (tradeLoop rest (mapSet mats t.commod (mapGet mats t.commod).dropLast)
            (ri.filter (fun p => p.1 ≠ m.objId))) >>= fun x =>
          .ok (x.1, x.2.1, (t, m) :: x.2.2) := rfl

theorem tradeLoop_ok_spec (st : ReactorState) (trades : List Request) :
    ∀ (mats : List (String × List Batch)) (ri : List (Nat × Nat)),
      (∀ c, trades.countP (fun t => decide (t.commod = c)) ≤ (mapGet mats c).length) →
      (∀ c, ∀ b ∈ mapGet mats c, fuel_outcommod st b = .ok c) →
      ∃ mats2 ri2 resp, tradeLoop trades mats ri = .ok (mats2, ri2, resp) ∧
        resp.length = trades.length ∧
        ∀ pr ∈ resp, fuel_outcommod st pr.2 = .ok pr.1.commod := by
  induction trades with
  | nil =>
    intro mats ri _ _
    exact ⟨mats, ri, [], rfl, rfl, fun pr hpr => absurd hpr (List.not_mem_nil pr)⟩
  | cons t rest ih =>
    intro mats ri hcount hmem
    have hc1 : 1 ≤ (mapGet mats t.commod).length := by
      have := hcount t.commod
      rw [List.countP_cons_of_pos _ _ (by simp)] at this
      omega
    have hne : mapGet mats t.commod ≠ [] := by
      intro hnil
      rw [hnil] at hc1
      simp at hc1
    cases hgl : (mapGet mats t.commod).getLast? with
    | none =>
      exact absurd (List.getLast?_eq_none_iff.mp hgl) hne
    | some m =>
      have hm : m ∈ mapGet mats t.commod := List.mem_of_getLast?_eq_some hgl
      have hmok : fuel_outcommod st m = .ok t.commod := hmem t.commod m hm
      have hcount2 : ∀ c, rest.countP (fun t2 => decide (t2.commod = c)) ≤
          (mapGet (mapSet mats t.commod (mapGet mats t.commod).dropLast) c).length := by
        intro c
        by_cases hcc : c = t.commod
        · subst hcc
          rw [mapGet_mapSet_self]
          have := hcount t.commod
          rw [List.countP_cons_of_pos _ _ (by simp)] at this
          rw [List.length_dropLast]
          omega
        · rw [mapGet_mapSet_ne mats t.commod c _ hcc]
          have := hcount c
          rw [List.countP_cons_of_neg _ _ (by
            simp
            intro he
            exact hcc he.symm)] at this
          exact this
      have hmem2 : ∀ c, ∀ b ∈ mapGet (mapSet mats t.commod
          (mapGet mats t.commod).dropLast) c, fuel_outcommod st b = .ok c := by
        intro c b hb
        by_cases hcc : c = t.commod
        · subst hcc
          rw [mapGet_mapSet_self] at hb
          exact hmem t.commod b (List.dropLast_sublist _ |>.subset hb)
        · rw [mapGet_mapSet_ne mats t.commod c _ hcc] at hb
          exact hmem c b hb
      rcases ih (mapSet mats t.commod (mapGet mats t.commod).dropLast)
        (ri.filter (fun p => p.1 ≠ m.objId)) hcount2 hmem2 with
        ⟨mats2, ri2, resp, hloop, hlen, hresp⟩
      have hstep : tradeLoop (t :: rest) mats ri =
          (tradeLoop rest (mapSet mats t.commod (mapGet mats t.commod).dropLast)
            (ri.filter (fun p => p.1 ≠ m.objId))) >>= fun x =>
            .ok (x.1, x.2.1, (t, m) :: x.2.2) := by
        rw [tradeLoop_cons, hgl]
      refine ⟨mats2, ri2, (t, m) :: resp, ?_, by simp [hlen], ?_⟩
      · rw [hstep, hloop, exc_bind_ok]
      · intro pr hpr
        rcases List.mem_cons.mp hpr with rfl | hpr2
        · exact hmok
        · exact hresp pr hpr2

theorem tradeLoop_error_spec (trades : List Request) :
    ∀ (mats : List (String × List Batch)) (ri : List (Nat × Nat)),
      (∃ c, (mapGet mats c).length <
        trades.countP (fun t => decide (t.commod = c))) →
      ∃ e, tradeLoop trades mats ri = .error e := by
  induction trades with
  | nil =>
    intro mats ri hv
    rcases hv with ⟨c, hc⟩
    simp [List.countP_nil] at hc
  | cons t rest ih =>
    intro mats ri hv
    cases hgl : (mapGet mats t.commod).getLast? with
    | none =>
      refine ⟨"undefined behavior - back() of an empty MatVec", ?_⟩
      rw [tradeLoop_cons, hgl]
    | some m =>
      have hne : mapGet mats t.commod ≠ [] := by
        intro hnil
        rw [hnil] at hgl
        cases hgl
      have hlen1 : 1 ≤ (mapGet mats t.commod).length :=
        List.length_pos.mpr hne
      have hv2 : ∃ c, (mapGet (mapSet mats t.commod
          (mapGet mats t.commod).dropLast) c).length <
          rest.countP (fun t2 => decide (t2.commod = c)) := by
        rcases hv with ⟨c, hc⟩
        refine ⟨c, ?_⟩
        by_cases hcc : c = t.commod
        · subst hcc
          rw [mapGet_mapSet_self, List.length_dropLast]
          rw [List.countP_cons_of_pos _ _ (by simp)] at hc
          omega
        · rw [mapGet_mapSet_ne mats t.commod c _ hcc]
          rw [List.countP_cons_of_neg _ _ (by
            simp
            intro he
            exact hcc he.symm)] at hc
          exact hc
      rcases ih (mapSet mats t.commod (mapGet mats t.commod).dropLast)
        (ri.filter (fun p => p.1 ≠ m.objId)) hv2 with ⟨e, he⟩
      have hstep : tradeLoop (t :: rest) mats ri =
          (tradeLoop rest (mapSet mats t.commod (mapGet mats t.commod).dropLast)
            (ri.filter (fun p => p.1 ≠ m.objId))) >>= fun x =>
            .ok (x.1, x.2.1, (t, m) :: x.2.2) := by
        rw [tradeLoop_cons, hgl]
      refine ⟨e, ?_⟩
      rw [hstep, he, exc_bind_error]

/-! Claim theorems. -/

/-- C1 counterexample: with `cycle_time = 2`, `refuel_time = 1`,
`cycle_step = 3` and a full core, the post-exchange call that performs the
reset emits CYCLE_START itself, and the following post-exchange call (core
still full) does not. -/
theorem C1_counterexample :
    exC1.cycle_step = exC1.cycle_time + exC1.refuel_time ∧
    exC1.core.length = exC1.n_assem_core ∧
    ("CYCLE_START", "") ∈ (Tock exC1).2.1 ∧
    ("CYCLE_START", "") ∉ (Tock (Tock exC1).1).2.1 := by decide

/-- C1 (amended): if during a post-exchange call `cycle_step` has reached
`cycle_time + refuel_time` while the core is full, that same call resets
`discharged` to false, emits CYCLE_START, and ends with `cycle_step = 1`
(the reset to 0 followed by the increment). -/
theorem C1_cycle_start_same_call (st : ReactorState)
    (h1 : st.cycle_time + st.refuel_time ≤ st.cycle_step)
    (h2 : st.core.length = st.n_assem_core) :
    (Tock st).1.discharged = false ∧
    (Tock st).1.cycle_step = 1 ∧
    ("CYCLE_START", "") ∈ (Tock st).2.1 := by
  refine ⟨?_, ?_, ?_⟩
  · rw [Tock_discharged_eq, if_pos ⟨h1, h2⟩]
  · rw [Tock_cycle_step_eq, if_pos ⟨h1, h2⟩]
  · rw [Tock_events_eq, if_pos ⟨Or.inr h1, h2⟩]
    exact List.mem_singleton.mpr rfl

/-- C1 witness: the amended theorem applied to the concrete scenario-D
state. -/
theorem C1_witness :
    exC1.cycle_time + exC1.refuel_time ≤ exC1.cycle_step ∧
    exC1.core.length = exC1.n_assem_core ∧
    ((Tock exC1).1.discharged = false ∧ (Tock exC1).1.cycle_step = 1 ∧
      ("CYCLE_START", "") ∈ (Tock exC1).2.1) :=
  ⟨by decide, by decide, C1_cycle_start_same_call exC1 (by decide) (by decide)⟩

/-- C2 counterexample: an untracked batch identity (no `res_indexes` entry)
reads the default index 0, which is in bounds whenever a fuel path is
configured, so all four lookups return a value instead of failing. -/
theorem C2_counterexample :
    exBase.res_indexes.lookup 99 = none ∧
    fuel_incommod exBase ⟨99, 10, "r"⟩ = .ok "enrU" ∧
    fuel_outcommod exBase ⟨99, 10, "r"⟩ = .ok "out1" ∧
    fuel_inrecipe exBase ⟨99, 10, "r"⟩ = .ok "rin" ∧
    fuel_outrecipe exBase ⟨99, 10, "r"⟩ = .ok "rout" := by decide

/-- C2 (amended): each of the four lookups fails with the
internal-consistency (KeyError) message exactly when the recorded index —
which defaults to 0 for an untracked identity — is out of bounds of the
corresponding fuel-path list; in particular an untracked batch resolves to
index 0 and, when the list is nonempty, silently returns path 0's value. -/
theorem C2_lookup_out_of_bounds (st : ReactorState) (m : Batch) :
    ((∃ e, fuel_incommod st m = .error e) ↔
      st.fuel_incommods.length ≤ res_index st m.objId) ∧
    ((∃ e, fuel_outcommod st m = .error e) ↔
      st.fuel_outcommods.length ≤ res_index st m.objId) ∧
    ((∃ e, fuel_inrecipe st m = .error e) ↔
      st.fuel_inrecipes.length ≤ res_index st m.objId) ∧
    ((∃ e, fuel_outrecipe st m = .error e) ↔
      st.fuel_outrecipes.length ≤ res_index st m.objId) ∧
    (st.res_indexes.lookup m.objId = none → res_index st m.objId = 0) := by
  refine ⟨?_, ?_, ?_, ?_, ?_⟩
  · exact commodLookup_error_iff st.fuel_incommods (res_index st m.objId) _
  · exact commodLookup_error_iff st.fuel_outcommods (res_index st m.objId) _
  · exact commodLookup_error_iff st.fuel_inrecipes (res_index st m.objId) _
  · exact commodLookup_error_iff st.fuel_outrecipes (res_index st m.objId) _
  · intro h
    simp [res_index, h]

/-- C5: `Discharge` returns false and leaves the state unchanged exactly
when the spent buffer's free capacity is below `n_assem_batch`; otherwise
it appends the `min(n_assem_batch, core.count())` oldest core batches to
spent, returns true, and core's count drops by exactly that amount (never
below zero). -/
theorem C5_discharge_spec (st : ReactorState) :
    ((Discharge st).2.1 = false ↔
      (st.n_assem_spent : Int) - st.spent.length < st.n_assem_batch) ∧
    ((Discharge st).2.1 = false →
      (Discharge st).1 = st ∧ (Discharge st).2.2 = [("DISCHARGE", "failed")]) ∧
    ((Discharge st).2.1 = true →
      (Discharge st).1.core = st.core.drop (min st.n_assem_batch st.core.length) ∧
      (Discharge st).1.spent = st.spent ++ st.core.take (min st.n_assem_batch st.core.length) ∧
      (Discharge st).1.core.length + min st.n_assem_batch st.core.length = st.core.length ∧
      (Discharge st).1.core.length ≤ st.core.length) := by
  unfold Discharge
  by_cases h : (st.n_assem_spent : Int) - st.spent.length < st.n_assem_batch
  · simp [h]
  · simp [h]

/-- C5 witness: the theorem applied to a state with zero free spent slots
(soft failure) — both branches of the specification evaluated concretely. -/
theorem C5_witness :
    ((Discharge exC5).2.1 = false ↔
      (exC5.n_assem_spent : Int) - exC5.spent.length < exC5.n_assem_batch) ∧
    ((Discharge exC5).2.1 = false →
      (Discharge exC5).1 = exC5 ∧ (Discharge exC5).2.2 = [("DISCHARGE", "failed")]) :=
  ⟨(C5_discharge_spec exC5).1, (C5_discharge_spec exC5).2.1⟩

/-- C8 counterexample: when the cycle-boundary reset fires
(`cycle_step = cycle_time + refuel_time = 3`, core full), the post-exchange
phase ends with `cycle_step = 1`, not `cycle_step + 1 = 4`, even though the
claimed exception (`cycle_step = 0` and core not full) does not apply. -/
theorem C8_counterexample :
    ¬(exC1.cycle_step = 0 ∧ exC1.core.length ≠ exC1.n_assem_core) ∧
    (Tock exC1).1.cycle_step ≠ exC1.cycle_step + 1 := by decide

/-- C8 (amended): a post-exchange phase in which the cycle-boundary reset
does not fire increments `cycle_step` by exactly 1, except when
`cycle_step = 0` and the core is not full (then it is left unchanged); a
phase in which the reset fires ends with `cycle_step = 1`; and once any
post-exchange call has seen a full core, `cycle_step` stays at least 1
forever, so the skip can occur only during initial fueling and the clock
never stalls after operation has begun. -/
theorem C8_increment (st : ReactorState) :
    (¬(st.cycle_time + st.refuel_time ≤ st.cycle_step ∧
        st.core.length = st.n_assem_core) →
      (Tock st).1.cycle_step =
        if st.cycle_step = 0 ∧ st.core.length ≠ st.n_assem_core then st.cycle_step
        else st.cycle_step + 1) ∧
    (st.cycle_time + st.refuel_time ≤ st.cycle_step ∧
        st.core.length = st.n_assem_core →
      (Tock st).1.cycle_step = 1) ∧
    (∀ cores : List (List Batch), (∃ c ∈ cores, c.length = st.n_assem_core) →
      1 ≤ (tockTrace st cores).cycle_step) := by
  refine ⟨?_, ?_, ?_⟩
  · intro h1
    rw [Tock_cycle_step_eq, if_neg h1]
    by_cases h2 : st.cycle_step = 0 ∧ st.core.length ≠ st.n_assem_core
    · have hnot : ¬(0 < st.cycle_step ∨ st.core.length = st.n_assem_core) := by
        rcases h2 with ⟨hz, hne⟩
        rw [hz]
        simp [hne]
      rw [if_neg hnot, if_pos h2]
    · have hyes : 0 < st.cycle_step ∨ st.core.length = st.n_assem_core := by
        by_cases hz : st.cycle_step = 0
        · right
          by_contra hne
          exact h2 ⟨hz, hne⟩
        · left
          omega
      rw [if_pos hyes, if_neg h2]
  · intro h1
    rw [Tock_cycle_step_eq, if_pos h1]
  · intro cores hfull
    induction cores generalizing st with
    | nil => simp at hfull
    | cons c rest ih =>
      rcases hfull with ⟨c', hc', hlen⟩
      rcases List.mem_cons.mp hc' with h | h
      · subst h
        have hpos : 1 ≤ (Tock { st with core := c' }).1.cycle_step :=
          Tock_cycle_step_pos _ (Or.inr hlen)
        exact tockTrace_pos _ rest hpos
      · have hcfg : (Tock { st with core := c }).1.n_assem_core = st.n_assem_core :=
          (Tock_preserves_config _).1
        have := ih (Tock { st with core := c }).1 ⟨c', h, by rw [hcfg]; exact hlen⟩
        exact this

/-- C8 witness: the amended theorem applied at the reset state `exC1` and
at a trace that contains a full core. -/
theorem C8_witness :
    ((exC1.cycle_time + exC1.refuel_time ≤ exC1.cycle_step ∧
        exC1.core.length = exC1.n_assem_core) ∧
      (Tock exC1).1.cycle_step = 1) ∧
    1 ≤ (tockTrace exC1 [[⟨7, 10, "rout"⟩]]).cycle_step :=
  ⟨⟨⟨by decide, by decide⟩, (C8_increment exC1).2.1 ⟨by decide, by decide⟩⟩,
    (C8_increment exC1).2.2 [[⟨7, 10, "rout"⟩]] ⟨[⟨7, 10, "rout"⟩], by decide, by decide⟩⟩

/-- C6: with `N = (n_assem_core − core.count()) + (n_assem_fresh −
fresh.count())` (as C++ int arithmetic): if `N ≤ 0` no request groups are
emitted; otherwise exactly `N` groups are emitted, each holding one request
per configured input commodity for quantity `assem_size` under that
commodity's configured in-recipe and preference, with the exclusive flag
set and all of the group's requests marked mutually exclusive. -/
theorem C6_request_groups (st : ReactorState)
    (h1 : st.fuel_inrecipes.length = st.fuel_incommods.length)
    (h2 : st.fuel_prefs.length = st.fuel_incommods.length) :
    (((st.n_assem_core : Int) - st.core.length + st.n_assem_fresh - st.fresh.length) ≤ 0 →
      GetMatlRequests st = []) ∧
    (0 < ((st.n_assem_core : Int) - st.core.length + st.n_assem_fresh - st.fresh.length) →
      (GetMatlRequests st).length =
        ((st.n_assem_core : Int) - st.core.length + st.n_assem_fresh -
          st.fresh.length).toNat ∧
      ∀ p ∈ GetMatlRequests st,
        p.mutualReqs = p.reqs ∧
        p.reqs.length = st.fuel_incommods.length ∧
        (∀ r ∈ p.reqs, r.exclusive = true ∧ r.qty = st.assem_size) ∧
        ∀ j, j < st.fuel_incommods.length →
          ∃ c rcp q, st.fuel_incommods[j]? = some c ∧
            st.fuel_inrecipes[j]? = some rcp ∧ st.fuel_prefs[j]? = some q ∧
            p.reqs[j]? = some ⟨c, st.assem_size, rcp, q, true⟩) := by
  constructor
  · intro hle
    unfold GetMatlRequests
    by_cases h0 : ((st.n_assem_core : Int) - st.core.length + st.n_assem_fresh -
        st.fresh.length) = 0
    · simp [h0]
    · have hneg : ((st.n_assem_core : Int) - st.core.length + st.n_assem_fresh -
          st.fresh.length) < 0 := lt_of_le_of_ne hle h0
      have htn : ((st.n_assem_core : Int) - st.core.length + st.n_assem_fresh -
          st.fresh.length).toNat = 0 := Int.toNat_of_nonpos (le_of_lt hneg)
      simp [h0, htn]
  · intro hpos
    have h0 : ¬((st.n_assem_core : Int) - st.core.length + st.n_assem_fresh -
        st.fresh.length) = 0 := by omega
    constructor
    · unfold GetMatlRequests
      simp [h0]
    · intro p hp
      unfold GetMatlRequests at hp
      rw [if_neg h0] at hp
      rcases List.mem_map.mp hp with ⟨i, _, hpe⟩
      have hpg : p = requestGroup st := hpe.symm
      subst hpg
      refine ⟨rfl, ?_, ?_, ?_⟩
      · simp [requestGroup]
      · intro r hr
        rcases List.mem_map.mp hr with ⟨j, _, hre⟩
        rw [← hre]
        exact ⟨rfl, rfl⟩
      · intro j hj
        refine ⟨st.fuel_incommods[j], st.fuel_inrecipes[j], st.fuel_prefs[j],
          List.getElem?_eq_getElem hj, List.getElem?_eq_getElem (by omega),
          List.getElem?_eq_getElem (by omega), ?_⟩
        have hrange : (List.range st.fuel_incommods.length)[j]? = some j := by
          simp [hj]
        simp only [requestGroup, List.getElem?_map, hrange, Option.map_some]
        have hc : st.fuel_incommods[j]? = some st.fuel_incommods[j] :=
          List.getElem?_eq_getElem hj
        have hrec : st.fuel_inrecipes[j]? = some st.fuel_inrecipes[j] :=
          List.getElem?_eq_getElem (by omega)
        have hq : st.fuel_prefs[j]? = some st.fuel_prefs[j] :=
          List.getElem?_eq_getElem (by omega)
        simp [hc, hrec, hq]

/-- C6 witness: scenario B — one missing core slot and one missing fresh
slot (N = 2), one configured commodity "enrU" with batch size 10: exactly
two groups, each with one exclusive request for 10 of "enrU" under "rin". -/
theorem C6_witness :
    exC6.fuel_inrecipes.length = exC6.fuel_incommods.length ∧
    (GetMatlRequests exC6).length =
      ((exC6.n_assem_core : Int) - exC6.core.length + exC6.n_assem_fresh -
        exC6.fresh.length).toNat ∧
    ∀ p ∈ GetMatlRequests exC6,
      p.mutualReqs = p.reqs ∧
      p.reqs.length = exC6.fuel_incommods.length ∧
      (∀ r ∈ p.reqs, r.exclusive = true ∧ r.qty = exC6.assem_size) ∧
      ∀ j, j < exC6.fuel_incommods.length →
        ∃ c rcp q, exC6.fuel_incommods[j]? = some c ∧
          exC6.fuel_inrecipes[j]? = some rcp ∧ exC6.fuel_prefs[j]? = some q ∧
          p.reqs[j]? = some ⟨c, exC6.assem_size, rcp, q, true⟩ :=
  ⟨by decide,
    ((C6_request_groups exC6 (by decide) (by decide)).2 (by decide)).1,
    ((C6_request_groups exC6 (by decide) (by decide)).2 (by decide)).2⟩

theorem transmute_mapM_ok (st : ReactorState) (l : List Batch)
    (h : ∀ b ∈ l, res_index st b.objId < st.fuel_outrecipes.length) :
    ∃ l2, (l.mapM (fun b => do
        let r ← fuel_outrecipe st b
        pure { b with recipe := r }) : Except String (List Batch)) = .ok l2 ∧
      l2.length = l.length ∧
      (∀ (j : Nat) (b : Batch), l[j]? = some b →
        ∃ r, st.fuel_outrecipes[res_index st b.objId]? = some r ∧
          l2[j]? = some { b with recipe := r }) ∧
      l2.map Batch.objId = l.map Batch.objId ∧
      l2.map Batch.qty = l.map Batch.qty := by
  induction l with
  | nil =>
    refine ⟨[], rfl, rfl, ?_, rfl, rfl⟩
    intro j b hb
    simp at hb
  | cons b t ih =>
    have hb := h b (List.mem_cons_self b t)
    have hbr : st.fuel_outrecipes[res_index st b.objId]? =
        some st.fuel_outrecipes[res_index st b.objId] :=
      List.getElem?_eq_getElem hb
    have hfb : fuel_outrecipe st b = .ok st.fuel_outrecipes[res_index st b.objId] := by
      unfold fuel_outrecipe
      rw [hbr]
    rcases ih (fun x hx => h x (List.mem_cons_of_mem b hx)) with
      ⟨l2t, hmt, hlen, hidx, hobj, hqty⟩
    refine ⟨{ b with recipe := st.fuel_outrecipes[res_index st b.objId] } :: l2t,
      ?_, by simp [hlen], ?_, by simp [hobj], by simp [hqty]⟩
    · rw [List.mapM_cons, hfb, hmt]
      rfl
    · intro j x hx
      cases j with
      | zero =>
        simp only [List.getElem?_cons_zero, Option.some.injEq] at hx
        subst hx
        exact ⟨_, hbr, by simp⟩
      | succ j =>
        simp only [List.getElem?_cons_succ] at hx ⊢
        exact hidx j x hx

/-- C7: on a full core, `Transmute` pops the oldest `n_assem_batch`
batches plus the remainder and re-pushes all of it, so the core afterwards
holds the same batches in the same discharge order (same identities and
quantities, position by position); the compositions of exactly the
`n_assem_batch` oldest batches are rewritten to their configured
out-recipe (the rest are untouched); and exactly one TRANSMUTE event is
emitted, counting `n_assem_batch` assemblies. -/
theorem C7_transmute_spec (st : ReactorState)
    (h1 : st.core.length = st.n_assem_core)
    (h2 : st.n_assem_batch ≤ st.n_assem_core)
    (h3 : ∀ b ∈ st.core.take st.n_assem_batch,
      res_index st b.objId < st.fuel_outrecipes.length) :
    ∃ st2 evs, Transmute st = .ok (st2, evs) ∧
      evs = [("TRANSMUTE", toString st.n_assem_batch ++ " assemblies")] ∧
      st2.core.length = st.core.length ∧
      st2.core.map Batch.objId = st.core.map Batch.objId ∧
      st2.core.map Batch.qty = st.core.map Batch.qty ∧
      (∀ j, st.n_assem_batch ≤ j → st2.core[j]? = st.core[j]?) ∧
      (∀ j, j < st.n_assem_batch → ∀ b, st.core[j]? = some b →
        ∃ r, st.fuel_outrecipes[res_index st b.objId]? = some r ∧
          st2.core[j]? = some { b with recipe := r }) ∧
      st2.spent = st.spent ∧ st2.fresh = st.fresh := by
  have hle : st.n_assem_batch ≤ st.core.length := by omega
  rcases transmute_mapM_ok st (st.core.take st.n_assem_batch) h3 with
    ⟨l2, hm, hlen, hidx, hobj, hqty⟩
  have hlen2 : l2.length = st.n_assem_batch := by
    rw [hlen, List.length_take]
    omega
  refine ⟨{ st with core := l2 ++ st.core.drop st.n_assem_batch },
    [("TRANSMUTE", toString st.n_assem_batch ++ " assemblies")], ?_, rfl,
    ?_, ?_, ?_, ?_, ?_, rfl, rfl⟩
  · have hts : (st.core.take st.n_assem_batch).length = st.n_assem_batch := by
      rw [List.length_take]
      omega
    simp only [Transmute, if_pos hle]
    rw [hm]
    simp [hts]
  · simp [hlen2, List.length_drop]
    omega
  · calc (l2 ++ st.core.drop st.n_assem_batch).map Batch.objId
        = l2.map Batch.objId ++ (st.core.drop st.n_assem_batch).map Batch.objId := by
          simp
      _ = (st.core.take st.n_assem_batch).map Batch.objId ++
            (st.core.drop st.n_assem_batch).map Batch.objId := by rw [hobj]
      _ = st.core.map Batch.objId := by
          rw [← List.map_append, List.take_append_drop]
  · calc (l2 ++ st.core.drop st.n_assem_batch).map Batch.qty
        = l2.map Batch.qty ++ (st.core.drop st.n_assem_batch).map Batch.qty := by
          simp
      _ = (st.core.take st.n_assem_batch).map Batch.qty ++
            (st.core.drop st.n_assem_batch).map Batch.qty := by rw [hqty]
      _ = st.core.map Batch.qty := by
          rw [← List.map_append, List.take_append_drop]
  · intro j hj
    have : (l2 ++ st.core.drop st.n_assem_batch)[j]? =
        (st.core.drop st.n_assem_batch)[j - l2.length]? :=
      List.getElem?_append_right (by omega)
    rw [this, List.getElem?_drop]
    congr 1
    omega
  · intro j hj b hb
    have hbt : (st.core.take st.n_assem_batch)[j]? = some b := by
      rw [List.getElem?_take_of_lt hj]
      exact hb
    rcases hidx j b hbt with ⟨r, hr, hl2⟩
    refine ⟨r, hr, ?_⟩
    rw [List.getElem?_append_left (by omega), hl2]

/-- C7 witness: the theorem applied to a full three-assembly core with
`n_assem_batch = 2` and all batches tracked on fuel path 0. -/
theorem C7_witness :
    exC7.core.length = exC7.n_assem_core ∧
    exC7.n_assem_batch ≤ exC7.n_assem_core ∧
    ∃ st2 evs, Transmute exC7 = .ok (st2, evs) ∧
      evs = [("TRANSMUTE", toString exC7.n_assem_batch ++ " assemblies")] ∧
      st2.core.length = exC7.core.length ∧
      st2.core.map Batch.objId = exC7.core.map Batch.objId ∧
      st2.core.map Batch.qty = exC7.core.map Batch.qty ∧
      (∀ j, exC7.n_assem_batch ≤ j → st2.core[j]? = exC7.core[j]?) ∧
      (∀ j, j < exC7.n_assem_batch → ∀ b, exC7.core[j]? = some b →
        ∃ r, exC7.fuel_outrecipes[res_index exC7 b.objId]? = some r ∧
          st2.core[j]? = some { b with recipe := r }) ∧
      st2.spent = exC7.spent ∧ st2.fresh = exC7.fresh := by
  refine ⟨by decide, by decide, ?_⟩
  have h := C7_transmute_spec exC7 (by decide) (by decide) (by decide)
  rcases h with ⟨st2, evs, hall⟩
  exact ⟨st2, evs, hall⟩

/-- C3 counterexample: with spent holding batch 1 (output commodity
"outB") then batch 2 (output commodity "outA"), the pop/push round trip
returns the buffer regrouped in ascending commodity order — batch 2 now
precedes batch 1 — so the pre-call order is not restored when commodities
are interleaved. -/
theorem C3_counterexample :
    exC3.spent = [⟨1, 5, "x"⟩, ⟨2, 5, "y"⟩] ∧
    fuel_outcommod exC3 ⟨1, 5, "x"⟩ = .ok "outB" ∧
    fuel_outcommod exC3 ⟨2, 5, "y"⟩ = .ok "outA" ∧
    Except.map (fun r => (PushSpent r.1 r.2).spent) (PopSpent exC3) =
      .ok [⟨2, 5, "y"⟩, ⟨1, 5, "x"⟩] := by
  refine ⟨rfl, rfl, rfl, ?_⟩
  rfl

/-- C3 (amended): popping all spent batches (`PopSpent`) and pushing the
entire popped map back (`PushSpent`) always restores the spent buffer's
content as a multiset (a permutation of the pre-call buffer), and restores
the exact pre-call order whenever all spent batches share one output
commodity; with interleaved output commodities the buffer comes back
regrouped by commodity in ascending key order. -/
theorem C3_roundtrip (st : ReactorState) :
    (∀ st1 m, PopSpent st = .ok (st1, m) →
      ((PushSpent st1 m).spent).Perm st.spent) ∧
    (∀ c, (∀ b ∈ st.spent, fuel_outcommod st b = .ok c) →
      ∀ st1 m, PopSpent st = .ok (st1, m) →
      (PushSpent st1 m).spent = st.spent) := by
  constructor
  · intro st1 m h
    unfold PopSpent at h
    cases hmb : mapByCommod st st.spent with
    | error e =>
      rw [hmb, exc_bind_error] at h
      cases h
    | ok mapped =>
      rw [hmb, exc_bind_ok, exc_pure] at h
      cases h
      rw [PushSpent_spent]
      have hmaps : ((mapped.map (fun g => (g.1, g.2.reverse))).map
          (fun g => g.2.reverse)).flatten = joinVals mapped := by
        have hfe : ((fun g => g.2.reverse) ∘ fun (g : String × List Batch) =>
            (g.1, g.2.reverse)) = fun g => g.2 := by
          funext g
          simp
        simp only [joinVals, List.map_map, hfe]
      rw [hmaps]
      have hperm := mapByCommod_join_perm st st.spent [] mapped hmb
      simpa using hperm
  · intro c hc st1 m h
    unfold PopSpent at h
    cases hsp : st.spent with
    | nil =>
      have hmb : mapByCommod st st.spent = .ok [] := by
        unfold mapByCommod
        rw [hsp, List.foldlM_nil, exc_pure]
      rw [hmb, exc_bind_ok, exc_pure] at h
      cases h
      rw [PushSpent_spent]
      simp [hsp]
    | cons b t =>
      have hb : fuel_outcommod st b = .ok c := by
        apply hc
        rw [hsp]
        exact List.mem_cons_self b t
      have hmb : mapByCommod st st.spent = .ok [(c, b :: t)] := by
        unfold mapByCommod
        rw [hsp, List.foldlM_cons, hb, exc_bind_ok, exc_pure, exc_bind_ok]
        have hmi : mapInsert [] c b = [(c, [b])] := rfl
        rw [hmi]
        have huni := mapByCommod_uniform st c t [b] (fun x hx => by
          apply hc
          rw [hsp]
          exact List.mem_cons_of_mem b hx)
        rw [huni]
        rfl
      rw [hmb, exc_bind_ok, exc_pure] at h
      cases h
      rw [PushSpent_spent]
      simp [hsp]

/-- C3 witness: the amended theorem applied to a state whose two spent
batches both map to output commodity "out1": the round trip restores the
buffer exactly. -/
theorem C3_witness :
    (∀ b ∈ exC4.spent, fuel_outcommod exC4 b = .ok "out1") ∧
    ∀ st1 m, PopSpent exC4 = .ok (st1, m) →
      (PushSpent st1 m).spent = exC4.spent :=
  ⟨by decide, (C3_roundtrip exC4).2 "out1" (by decide)⟩

theorem bids_exC4_eval :
    GetMatlBids exC4 reqsC4 = .ok [⟨"out1", [(reqOut1, [bA])], 10⟩] := by
  show GetMatlBidsAux exC4 reqsC4 exC4.fuel_outcommods = _
  rw [show exC4.fuel_outcommods = ["out1"] from rfl, GetMatlBidsAux_cons,
    if_neg (by decide), show PeekSpent exC4 = .ok [("out1", [bA, bB])] from by decide,
    exc_bind_ok, if_neg (by decide),
    show GetMatlBidsAux exC4 reqsC4 [] = .ok [] from rfl, exc_bind_ok]
  have hg : greedyBids [bA, bB] 0 reqOut1.qty = [bA] := by
    rw [greedyBids_cons, if_pos (by norm_num [bA, reqOut1])]
  have hs : sumQty [bA, bB] = 10 := by
    norm_num [sumQty, bA, bB]
  have hm : mapGet [("out1", [bA, bB])] "out1" = [bA, bB] := by decide
  rw [hm]
  simp [reqsC4, hg]
  exact hs

/-- C4 counterexample: scenario C — spent holds `bA` then `bB` (pushed in
that order, both quantity 5, commodity "out1") and one demand for 5 units
of "out1" arrives.  The bid offers `bA` (the earlier-pushed batch) and
stops; `bB` is not offered at all, so `bB` is not offered before `bA`. -/
theorem C4_counterexample :
    exC4.spent = [bA, bB] ∧ bA ≠ bB ∧
    GetMatlBids exC4 reqsC4 = .ok [⟨"out1", [(reqOut1, [bA])], 10⟩] :=
  ⟨rfl, by decide, bids_exC4_eval⟩

/-- C4 (amended): in bid generation, for each pending request on an output
commodity with a nonempty matching spent group, batches are offered
oldest-available first — each request's offer list is a prefix of the
group's oldest-first order, every nonempty strict prefix of the offer
accumulates strictly less than the requested quantity, and the offer either
reaches the requested quantity or exhausts the group; in scenario C
(`spent = [A, B]`, both quantity 5, one demand for 5 of "out1"), batch A
(the earlier-pushed, oldest) is offered and B is not offered. -/
theorem C4_bid_greedy_oldest_first :
    (∀ (st : ReactorState) (requests : String → List Request)
        (ports : List BidPortfolio), GetMatlBids st requests = .ok ports →
      ∀ p ∈ ports, ∃ am, PeekSpent st = .ok am ∧
        p.constraint = sumQty (mapGet am p.commod) ∧
        ∀ rb ∈ p.bids, GreedyOfferSpec (mapGet am p.commod) rb.1.qty rb.2) ∧
    GetMatlBids exC4 reqsC4 = .ok [⟨"out1", [(reqOut1, [bA])], 10⟩] := by
  constructor
  · intro st requests ports h p hp
    rcases GetMatlBidsAux_spec st requests st.fuel_outcommods ports h p hp with
      ⟨am, ham, hcon, hbids⟩
    refine ⟨am, ham, hcon, ?_⟩
    intro rb hrb
    rw [hbids] at hrb
    rcases List.mem_map.mp hrb with ⟨req, _, hre⟩
    rcases greedyBids_spec (mapGet am p.commod) 0 req.qty with
      ⟨k, h1, h2, h3, h4, h5, h6⟩
    rw [← hre]
    exact ⟨k, h1, by simpa using h2, h3, h4,
      fun j hj1 hj2 => by simpa using h5 j hj1 hj2, by simpa using h6⟩
  · exact bids_exC4_eval

/-- C4 witness: the general part of the amended theorem applied to the
concrete scenario-C state. -/
theorem C4_witness :
    GetMatlBids exC4 reqsC4 = .ok [⟨"out1", [(reqOut1, [bA])], 10⟩] ∧
    ∀ p ∈ [(⟨"out1", [(reqOut1, [bA])], 10⟩ : BidPortfolio)],
      ∃ am, PeekSpent exC4 = .ok am ∧
        p.constraint = sumQty (mapGet am p.commod) ∧
        ∀ rb ∈ p.bids, GreedyOfferSpec (mapGet am p.commod) rb.1.qty rb.2 :=
  ⟨bids_exC4_eval,
    C4_bid_greedy_oldest_first.1 exC4 reqsC4
      [⟨"out1", [(reqOut1, [bA])], 10⟩] bids_exC4_eval⟩

theorem acceptLoop_ok (responses : List (String × Batch)) :
    ∀ st st2 : ReactorState, acceptLoop st responses = .ok st2 →
      st2.n_assem_core = st.n_assem_core ∧ st2.n_assem_fresh = st.n_assem_fresh ∧
      (st.core.length ≤ st.n_assem_core → st2.core.length ≤ st.n_assem_core) ∧
      (st.fresh.length ≤ st.n_assem_fresh → st2.fresh.length ≤ st.n_assem_fresh) := by
  induction responses with
  | nil =>
    intro st st2 h
    cases h
    exact ⟨rfl, rfl, id, id⟩
  | cons r rest ih =>
    intro st st2 h
    rcases r with ⟨c, m⟩
    unfold acceptLoop at h
    cases hir : index_res st m.objId c with
    | error e =>
      rw [hir, exc_bind_error] at h
      cases h
    | ok ri =>
      rw [hir, exc_bind_ok] at h
      dsimp only at h
      by_cases hcl : st.core.length < st.n_assem_core
      · rw [if_pos hcl] at h
        unfold bufPush at h
        rw [if_pos hcl, exc_bind_ok] at h
        rcases ih _ _ h with ⟨hc1, hc2, hc3, hc4⟩
        dsimp only at hc1 hc2 hc3 hc4
        refine ⟨hc1, hc2, fun _ => ?_, fun hf => hc4 hf⟩
        have : (st.core ++ [m]).length ≤ st.n_assem_core := by
          simp
          omega
        exact hc3 this
      · rw [if_neg hcl] at h
        unfold bufPush at h
        by_cases hfl : st.fresh.length < st.n_assem_fresh
        · rw [if_pos hfl, exc_bind_ok] at h
          rcases ih _ _ h with ⟨hc1, hc2, hc3, hc4⟩
          dsimp only at hc1 hc2 hc3 hc4
          refine ⟨hc1, hc2, fun hc => hc3 hc, fun _ => ?_⟩
          have : (st.fresh ++ [m]).length ≤ st.n_assem_fresh := by
            simp
            omega
          exact hc4 this
        · rw [if_neg hfl, exc_bind_error] at h
          cases h

/-- C9: after any trade-acceptance call that completes (each delivered
batch indexed, then pushed into core when core has room, else into fresh),
the invariant `core.count() + fresh.count() ≤ n_assem_core + n_assem_fresh`
holds, for every list of awarded responses.  The capacity bound on the
fresh push is the buffer capacity modelled from the spec (see `bufPush`). -/
theorem C9_accept_invariant (st : ReactorState)
    (responses : List (String × Batch))
    (h1 : st.core.length ≤ st.n_assem_core)
    (h2 : st.fresh.length ≤ st.n_assem_fresh) :
    ∀ st2 evs, AcceptMatlTrades st responses = .ok (st2, evs) →
      st2.core.length + st2.fresh.length ≤ st.n_assem_core + st.n_assem_fresh := by
  intro st2 evs h
  unfold AcceptMatlTrades at h
  cases hal : acceptLoop st responses with
  | error e =>
    rw [hal, exc_bind_error] at h
    cases h
  | ok st3 =>
    rw [hal, exc_bind_ok, exc_pure] at h
    cases h
    rcases acceptLoop_ok responses st st2 hal with ⟨_, _, hc3, hc4⟩
    have := hc3 h1
    have := hc4 h2
    omega

/-- C9 witness: the theorem applied to a one-slot core and one-slot fresh
buffer receiving two awarded responses. -/
theorem C9_witness :
    exC9.core.length ≤ exC9.n_assem_core ∧
    exC9.fresh.length ≤ exC9.n_assem_fresh ∧
    ∀ st2 evs, AcceptMatlTrades exC9
        [("enrU", ⟨1, 10, "rin"⟩), ("enrU", ⟨2, 10, "rin"⟩)] = .ok (st2, evs) →
      st2.core.length + st2.fresh.length ≤ exC9.n_assem_core + exC9.n_assem_fresh :=
  ⟨by decide, by decide,
    C9_accept_invariant exC9 [("enrU", ⟨1, 10, "rin"⟩), ("enrU", ⟨2, 10, "rin"⟩)]
      (by decide) (by decide)⟩

/-- C10: outgoing trade delivery (`GetMatlTrades`) takes the last element
of the per-commodity spent group without an emptiness guard: whenever some
output commodity has more awarded trades than matching spent batches, an
empty vector's `back()` is reached (modelled as an error); and under the
precondition that each commodity's awarded-trade count is at most its
matching spent-batch count, the call succeeds and every trade is answered
with a batch whose recorded output commodity matches the trade's
commodity. -/
theorem C10_outgoing_trades (st : ReactorState) (trades : List Request)
    (hspent : ∀ b ∈ st.spent, ∃ c, fuel_outcommod st b = .ok c) :
    ((∀ c, trades.countP (fun t => decide (t.commod = c)) ≤
        (spentWithCommod st c).length) →
      ∃ st2 responses, GetMatlTrades st trades = .ok (st2, responses) ∧
        responses.length = trades.length ∧
        ∀ pr ∈ responses, fuel_outcommod st pr.2 = .ok pr.1.commod) ∧
    ((∃ c, (spentWithCommod st c).length <
        trades.countP (fun t => decide (t.commod = c))) →
      ∃ e, GetMatlTrades st trades = .error e) := by
  rcases mapByCommod_spec st st.spent [] List.Pairwise.nil hspent with
    ⟨mapped, hmb, hsorted, hget⟩
  have hpop : PopSpent st = .ok ({ st with spent := [] },
      mapped.map (fun g => (g.1, g.2.reverse))) := by
    unfold PopSpent
    rw [show (mapByCommod st st.spent : Except String (List (String × List Batch))) =
      .ok mapped from hmb, exc_bind_ok, exc_pure]
  have hget2 : ∀ c, mapGet (mapped.map (fun g => (g.1, g.2.reverse))) c =
      (spentWithCommod st c).reverse := by
    intro c
    rw [mapGet_map_reverse, hget c]
    rfl
  constructor
  · intro hcount
    have hcount2 : ∀ c, trades.countP (fun t => decide (t.commod = c)) ≤
        (mapGet (mapped.map (fun g => (g.1, g.2.reverse))) c).length := by
      intro c
      rw [hget2 c, List.length_reverse]
      exact hcount c
    have hmem2 : ∀ c, ∀ b ∈ mapGet (mapped.map (fun g => (g.1, g.2.reverse))) c,
        fuel_outcommod st b = .ok c := by
      intro c b hb
      rw [hget2 c, List.mem_reverse] at hb
      unfold spentWithCommod at hb
      exact of_decide_eq_true (List.mem_filter.mp hb).2
    rcases tradeLoop_ok_spec st trades (mapped.map (fun g => (g.1, g.2.reverse)))
      st.res_indexes hcount2 hmem2 with ⟨mats2, ri2, resp, hloop, hlen, hresp⟩
    refine ⟨PushSpent { st with spent := [], res_indexes := ri2 } mats2, resp,
      ?_, hlen, hresp⟩
    unfold GetMatlTrades
    rw [hpop, exc_bind_ok]
    dsimp only
    rw [hloop, exc_bind_ok]
    rfl
  · intro hv
    have hv2 : ∃ c, (mapGet (mapped.map (fun g => (g.1, g.2.reverse))) c).length <
        trades.countP (fun t => decide (t.commod = c)) := by
      rcases hv with ⟨c, hc⟩
      refine ⟨c, ?_⟩
      rw [hget2 c, List.length_reverse]
      exact hc
    rcases tradeLoop_error_spec trades (mapped.map (fun g => (g.1, g.2.reverse)))
      st.res_indexes hv2 with ⟨e, he⟩
    refine ⟨e, ?_⟩
    unfold GetMatlTrades
    rw [hpop, exc_bind_ok]
    dsimp only
    rw [he, exc_bind_error]

/-- C10 witness: one awarded trade for "out1" against two matching spent
batches satisfies the precondition, and the call succeeds with a
matching-commodity response. -/
theorem C10_witness :
    (∀ b ∈ exC4.spent, ∃ c, fuel_outcommod exC4 b = .ok c) ∧
    (∀ c, ([reqOut1] : List Request).countP (fun t => decide (t.commod = c)) ≤
      (spentWithCommod exC4 c).length) ∧
    (∃ st2 responses, GetMatlTrades exC4 [reqOut1] = .ok (st2, responses) ∧
      responses.length = ([reqOut1] : List Request).length ∧
      ∀ pr ∈ responses, fuel_outcommod exC4 pr.2 = .ok pr.1.commod) := by
  have hsp : ∀ b ∈ exC4.spent, ∃ c, fuel_outcommod exC4 b = .ok c := by
    intro b hb
    rcases List.mem_cons.mp hb with rfl | hb2
    · exact ⟨"out1", by decide⟩
    · rcases List.mem_singleton.mp hb2 with rfl
      exact ⟨"out1", by decide⟩
  have hcount : ∀ c, ([reqOut1] : List Request).countP
      (fun t => decide (t.commod = c)) ≤ (spentWithCommod exC4 c).length := by
    intro c
    by_cases hc : ("out1" : String) = c
    · subst hc
      decide
    · have hp : (fun (t : Request) => decide (t.commod = c)) reqOut1 = false := by
        simp [reqOut1]
        intro he
        exact hc he
      rw [List.countP_cons_of_neg _ _ (by simp [hp]), List.countP_nil]
      exact Nat.zero_le _
  exact ⟨hsp, hcount, (C10_outgoing_trades exC4 [reqOut1] hsp).1 hcount⟩

end Cycamore
